import Mathlib

/-!
# Verification of the annotation raster/vector codec

Shallow embedding of the raster/vector codec scripts of the
`customer-enablement` repository:

* `local_file_manipulation/converting_json_to_nifti_itk_snap.py` — plain RLE
  decoder (`decode_rle`) and frame loop;
* `local_file_manipulation/itk_snap_convert_json_to_nifti.py` — mapped RLE
  decoder, global identity table and frame loop;
* `darwin_json/mask_class_conversion.py` — RLE decoding loop that skips
  zero-valued runs;
* `darwin_json/iou/iou_utils.py` and `iou_calculator.py` — mask set algebra
  and IoU;
* `darwin_json/convert_darwin_json_to_mask.py` — polygon rasterisation entry;
* `darwin_json/png_to_complex_darwin_json.py` — contour path emission.

Masks are row-major grids of naturals; the numpy `uint8` buffers of the
decoders are modelled by writing values modulo 256.  Python exceptions are
modelled by `Except PyError`.
-/

set_option autoImplicit false

namespace Codec

/-- Python exceptions raised by the embedded scripts. -/
inductive PyError where
  | keyError : String → PyError
  | keyErrorNat : Nat → PyError
  | zeroDivision : PyError
  | valueError : PyError
  deriving DecidableEq

/-- numpy slice assignment `buf[pos : pos + len] = v`: positions
`pos, …, pos+len-1` receive `v`; indices beyond the end of the buffer are
silently clipped, exactly as numpy basic slicing does. -/
def writeRun (v : Nat) : Nat → Nat → List Nat → List Nat
  | _, _, [] => []
  | 0, 0, xs => xs
  | 0, len + 1, _ :: xs => v :: writeRun v 0 len xs
  | pos + 1, len, x :: xs => x :: writeRun v pos len xs

/-- The decoding loop of `decode_rle` in
`converting_json_to_nifti_itk_snap.py`: every run `(value, count)` is written
into the `uint8` buffer (`value % 256`) at the running position, which then
advances by `count`. -/
def runRLE : List (Nat × Nat) → Nat → List Nat → List Nat
  | [], _, buf => buf
  | (v, c) :: rest, pos, buf => runRLE rest (pos + c) (writeRun (v % 256) pos c buf)

/-- The decoding loop of the `flat_mask` construction in
`mask_class_conversion.py`: identical to `runRLE` except that runs whose
value is `0` are skipped (`if value != 0`), only advancing the position. -/
def runRLEskip : List (Nat × Nat) → Nat → List Nat → List Nat
  | [], _, buf => buf
  | (v, c) :: rest, pos, buf =>
      runRLEskip rest (pos + c) (if v ≠ 0 then writeRun (v % 256) pos c buf else buf)

/-- `mask.reshape(height, width)` on a flat row-major buffer. -/
def reshape : Nat → Nat → List Nat → List (List Nat)
  | 0, _, _ => []
  | h + 1, w, xs => xs.take w :: reshape h w (xs.drop w)

/-- Sum of the counts of a run-length stream. -/
def sumCounts (rle : List (Nat × Nat)) : Nat :=
  (rle.map Prod.snd).sum

/-- `decode_rle(rle_data, width, height)` from
`converting_json_to_nifti_itk_snap.py`: zero-initialised `uint8` buffer of
`width*height` cells, each run written at the running position, then reshaped to
`height × width`.  The function is total: no length check is performed. -/
def decode_rle (rle : List (Nat × Nat)) (width height : Nat) : List (List Nat) :=
  reshape height width (runRLE rle 0 (List.replicate (width * height) 0))

/-- The `flat_mask` decoder of `mask_class_conversion.py`: a zero-initialised
buffer of `total_pixels` cells decoded by the zero-skipping loop, then
`reshape((height, width))`, which raises `ValueError` when
`total_pixels ≠ height*width`. -/
def mask_class_decode (rle : List (Nat × Nat)) (total_pixels width height : Nat) :
    Except PyError (List (List Nat)) :=
  if total_pixels = height * width then
    .ok (reshape height width (runRLEskip rle 0 (List.replicate total_pixels 0)))
  else
    .error .valueError

/-- Modelled from the spec: `encode(mask) -> RunLengthStream` (§4.1) is
required by the spec for testability but has no implementation under `src/`;
it walks the flat mask row-major, merging adjacent equal values into
`(value, count)` runs. -/
def encode : List Nat → List (Nat × Nat)
  | [] => []
  | x :: xs =>
      match encode xs with
      | (v, c) :: rest => if v = x then (x, c + 1) :: rest else (x, 1) :: (v, c) :: rest
      | [] => [(x, 1)]

/-- The row-major expansion a run-length stream denotes: each run `(v, c)`
contributes `c` copies of `v % 256`. -/
def expand (rle : List (Nat × Nat)) : List Nat :=
  (rle.map (fun p => List.replicate p.2 (p.1 % 256))).flatten

/-- The binary interpretation of a mask cell (`value != 0`), as used by
`np.logical_and` / `np.logical_or` in `iou_utils.py`. -/
def truthy (x : Nat) : Bool := x != 0

/-- `Flatten(arr)` from `iou_utils.py`: row-major flattening. -/
def Flatten (arr : List (List Nat)) : List Nat := arr.flatten

/-- numpy broadcasting of a binary boolean ufunc over two 1-D arrays:
equal lengths act elementwise, a length-1 operand broadcasts over the other,
any other length combination raises `ValueError`. -/
def npBroadcast (f : Bool → Bool → Bool) (a b : List Bool) : Except PyError (List Bool) :=
  if a.length = b.length then .ok (List.zipWith f a b)
  else
    match a, b with
    | [x], ys => .ok (ys.map (f x))
    | xs, [y] => .ok (xs.map (fun x => f x y))
    | _, _ => .error .valueError

/-- `Array_AND(arr1, arr2)` from `iou_utils.py`: flatten both arrays, take
`np.logical_and`, and return the boolean array together with its
`np.count_nonzero`; no shape check beyond numpy's own broadcast rules. -/
def Array_AND (arr1 arr2 : List (List Nat)) : Except PyError (List Bool × Nat) := do
  let r ← npBroadcast and ((Flatten arr1).map truthy) ((Flatten arr2).map truthy)
  .ok (r, r.count true)

/-- `Array_OR(arr1, arr2)` from `iou_utils.py`, analogous to `Array_AND`. -/
def Array_OR (arr1 arr2 : List (List Nat)) : Except PyError (List Bool × Nat) := do
  let r ← npBroadcast or ((Flatten arr1).map truthy) ((Flatten arr2).map truthy)
  .ok (r, r.count true)

/-- The IoU computation of `main` in `iou_calculator.py`, abstracted over the
two generated masks: `Intersection / Overlap` by Python true division, which
raises `ZeroDivisionError` when the overlap (union) count is zero. -/
def iou (mask_1 mask_2 : List (List Nat)) : Except PyError ℚ := do
  let i ← Array_AND mask_1 mask_2
  let u ← Array_OR mask_1 mask_2
  if u.2 = 0 then .error .zeroDivision else .ok ((i.2 : ℚ) / (u.2 : ℚ))

/-- The `raster_layer` record of one frame in the Darwin JSON: the dense RLE
stream and the `mask_annotation_ids_mapping` from annotation id to frame-local
mask value. -/
structure RasterLayer where
  dense_rle : List (Nat × Nat)
  mask_annotation_ids_mapping : List (String × Nat)
  deriving DecidableEq

/-- One entry of an annotation record's `frames` dictionary; the
`raster_layer` key is optional. -/
structure FrameData where
  raster_layer : Option RasterLayer
  deriving DecidableEq

/-- One element of the item's `annotations` list. -/
structure AnnRecord where
  id : String
  name : String
  frames : List (Nat × FrameData)
  deriving DecidableEq

/-- Python `dict` lookup modelled on an insertion-ordered association list:
a later binding of the same key overwrites an earlier one, so the last
matching entry wins. -/
def dlookup {α β : Type} [DecidableEq α] : List (α × β) → α → Option β
  | [], _ => none
  | (k, v) :: rest, key =>
      match dlookup rest key with
      | some r => some r
      | none => if k = key then some v else none

/-- The enumeration underlying
`global_mapping = {annotation["id"]: i + 1 for i, annotation in enumerate(data["annotations"])}`
of `itk_snap_convert_json_to_nifti.py`, started at index `i`. -/
def globalEntriesFrom : Nat → List AnnRecord → List (String × Nat)
  | _, [] => []
  | i, a :: rest => (a.id, i + 1) :: globalEntriesFrom (i + 1) rest

/-- The `global_mapping` table: annotation id to 1-based position in the
item's annotation list. -/
def globalEntries (anns : List AnnRecord) : List (String × Nat) :=
  globalEntriesFrom 0 anns

/-- `frame_mapping = {v: global_mapping[k] for k, v in mask_annotation_ids_mapping.items()} | {0: 0}`:
iterate the mapping's entries in order, raising `KeyError(k)` when an
annotation id is absent from the global table; the trailing `| {0: 0}` binds
local value 0 to 0, overriding any earlier binding of 0. -/
def buildFrameMapping (anns : List AnnRecord) :
    List (String × Nat) → Except PyError (List (Nat × Nat))
  | [] => .ok [(0, 0)]
  | (k, v) :: rest =>
      match dlookup (globalEntries anns) k with
      | none => .error (.keyError k)
      | some g =>
          match buildFrameMapping anns rest with
          | .ok m => .ok ((v, g) :: m)
          | .error e => .error e

/-- The decoding loop of `decode_rle(rle_data, width, height, mapping)` in
`itk_snap_convert_json_to_nifti.py`: each run's value is translated through
the frame mapping (`KeyError` when absent) before being written to the
`uint8` buffer. -/
def runRLEmapped (fm : List (Nat × Nat)) :
    List (Nat × Nat) → Nat → List Nat → Except PyError (List Nat)
  | [], _, buf => .ok buf
  | (v, c) :: rest, pos, buf =>
      match dlookup fm v with
      | none => .error (.keyErrorNat v)
      | some mv => runRLEmapped fm rest (pos + c) (writeRun (mv % 256) pos c buf)

/-- `decode_rle` with a mapping, reshaped to `height × width`. -/
def decode_rle_mapped (rle : List (Nat × Nat)) (width height : Nat)
    (fm : List (Nat × Nat)) : Except PyError (List (List Nat)) :=
  match runRLEmapped fm rle 0 (List.replicate (width * height) 0) with
  | .ok buf => .ok (reshape height width buf)
  | .error e => .error e

/-- `np.zeros((height, width))`. -/
def zeros2 (height width : Nat) : List (List Nat) :=
  List.replicate height (List.replicate width 0)

/-- The inner frame loop of `process_and_flip_image` in
`itk_snap_convert_json_to_nifti.py` for one annotation record: iterate the
declared frame numbers; a frame number absent from the `frames` dict
contributes an all-background mask (`else: masks.append(zeroes)`); a present
frame contributes its decoded raster layer — and contributes nothing at all
when its entry has no `raster_layer` key (there is no `else` on the inner
`if`). -/
def frameMasks (anns : List AnnRecord) (w h : Nat) (frames : List (Nat × FrameData)) :
    List Nat → Except PyError (List (List (List Nat)))
  | [] => .ok []
  | n :: ns =>
      match dlookup frames n with
      | some fd =>
          match fd.raster_layer with
          | some rl =>
              match buildFrameMapping anns rl.mask_annotation_ids_mapping with
              | .error e => .error e
              | .ok fm =>
                  match decode_rle_mapped rl.dense_rle w h fm with
                  | .error e => .error e
                  | .ok m =>
                      match frameMasks anns w h frames ns with
                      | .error e => .error e
                      | .ok ms => .ok (m :: ms)
          | none => frameMasks anns w h frames ns
      | none =>
          match frameMasks anns w h frames ns with
          | .error e => .error e
          | .ok ms => .ok (zeros2 h w :: ms)

/-- The mask-collection loop of `process_and_flip_image` over the item's
annotation list: every record named `"__raster_layer__"` contributes its
frame masks, iterating frame numbers `0, …, frame_count-1`. -/
def collectMasksAux (anns : List AnnRecord) (w h fc : Nat) :
    List AnnRecord → Except PyError (List (List (List Nat)))
  | [] => .ok []
  | a :: rest =>
      if a.name = "__raster_layer__" then
        match frameMasks anns w h a.frames (List.range fc) with
        | .error e => .error e
        | .ok ms =>
            match collectMasksAux anns w h fc rest with
            | .error e => .error e
            | .ok more => .ok (ms ++ more)
      else collectMasksAux anns w h fc rest

/-- The full mask collection of one item's conversion. -/
def collectMasks (anns : List AnnRecord) (w h fc : Nat) :
    Except PyError (List (List (List Nat))) :=
  collectMasksAux anns w h fc anns

/-- Modelled from the spec: `darwin.utils.convert_polygons_to_sequences` is
an external helper with no implementation under `src/`; for a single polygon
given as a list of points it emits one coordinate sequence, raising
`ValueError` on an empty input and performing no minimum-vertex check.  The
claims exercise only integral vertices, so coordinates are `Int` and the
helper's rounding is the identity. -/
def convert_polygons_to_sequences (polygon : List (Int × Int)) :
    Except PyError (List (List (Int × Int))) :=
  if polygon = [] then .error .valueError else .ok [polygon]

/-- Collinearity-and-betweenness test: the pixel centre lies on the closed
segment. -/
def onSeg (px py x1 y1 x2 y2 : Int) : Bool :=
  decide ((x2 - x1) * (py - y1) = (y2 - y1) * (px - x1) ∧
    min x1 x2 ≤ px ∧ px ≤ max x1 x2 ∧ min y1 y2 ≤ py ∧ py ≤ max y1 y2)

/-- One even-odd ray-crossing test for the horizontal ray to the right of
the pixel centre. -/
def crossesRay (px py x1 y1 x2 y2 : Int) : Bool :=
  decide (((y1 ≤ py ∧ py < y2) ∧ (x2 - x1) * (py - y1) > (px - x1) * (y2 - y1)) ∨
    ((y2 ≤ py ∧ py < y1) ∧ (x2 - x1) * (py - y1) < (px - x1) * (y2 - y1)))

/-- The closed edge list of a polygon (last point connects to first). -/
def edges (seq : List (Int × Int)) : List ((Int × Int) × (Int × Int)) :=
  match seq with
  | [] => []
  | p :: _ => seq.zip (seq.tail ++ [p])

/-- Even-odd membership with inclusive edges. -/
def insideEO (seq : List (Int × Int)) (px py : Int) : Bool :=
  (edges seq).any (fun e => onSeg px py e.1.1 e.1.2 e.2.1 e.2.2) ||
    ((edges seq).countP (fun e => crossesRay px py e.1.1 e.1.2 e.2.1 e.2.2)) % 2 == 1

/-- Modelled from the spec: `upolygon.draw_polygon` is an external library
treated as a black box; §4.2 fixes its observable contract as an even-odd
scanline fill with inclusive edges, writing `value` into every covered pixel
of the given mask and leaving the rest unchanged. -/
def draw_polygon (mask : List (List Nat)) (sequences : List (List (Int × Int)))
    (value : Nat) : List (List Nat) :=
  mask.mapIdx fun y row => row.mapIdx fun x old =>
    if sequences.any (fun s => insideEO s (Int.ofNat x) (Int.ofNat y)) then value else old

/-- `gen_mask(polygon, height, width)` from `convert_darwin_json_to_mask.py`
and `iou/iou_calculator.py`: a `height × width` zero mask, the polygon
converted to sequences, then drawn with value 1.  No minimum-vertex check is
performed anywhere: the only failure mode is the helper's `ValueError` on an
empty polygon list. -/
def gen_mask (polygon : List (Int × Int)) (height width : Nat) :
    Except PyError (List (List Nat)) :=
  match convert_polygons_to_sequences polygon with
  | .error e => .error e
  | .ok seqs => .ok (draw_polygon (zeros2 height width) seqs 1)

/-- Pair a flat coordinate list `[x0, y0, x1, y1, …]` into points, exactly as
the `while True: x, y = next(points), next(points)` loop of
`png_to_complex_darwin_json.py` (a dangling odd coordinate is dropped at the
`StopIteration` break). -/
def toPoints : List Nat → List (Nat × Nat)
  | x :: y :: rest => (x, y) :: toPoints rest
  | _ => []

/-- The path filter of `convert_png_to_darwin_json`: a traced path is kept
only when `len(path) // 2 > 2`, i.e. when it carries at least 3 points. -/
def keepPaths (paths : List (List Nat)) : List (List (Nat × Nat)) :=
  paths.foldr (fun p acc => if p.length / 2 ≤ 2 then acc else toPoints p :: acc) []

/-- `convert_png_to_darwin_json` abstracted over the outputs of the external
`upolygon.find_contours` tracer: the kept external paths followed by the
kept internal paths, in order. -/
def convert_png_to_darwin_json (outer inner : List (List Nat)) :
    List (List (Nat × Nat)) :=
  keepPaths outer ++ keepPaths inner

@[simp] theorem writeRun_nil (v pos len : Nat) : writeRun v pos len [] = [] := by
  cases pos <;> cases len <;> rfl

@[simp] theorem writeRun_zero_zero (v : Nat) (xs : List Nat) : writeRun v 0 0 xs = xs := by
  cases xs <;> rfl

@[simp] theorem writeRun_zero_succ (v len x : Nat) (xs : List Nat) :
    writeRun v 0 (len + 1) (x :: xs) = v :: writeRun v 0 len xs := rfl

@[simp] theorem writeRun_succ (v pos len x : Nat) (xs : List Nat) :
    writeRun v (pos + 1) len (x :: xs) = x :: writeRun v pos len xs := by
  cases len <;> rfl

@[simp] theorem writeRun_length (v pos len : Nat) (buf : List Nat) :
    (writeRun v pos len buf).length = buf.length := by
  induction buf generalizing pos len with
  | nil => simp
  | cons x xs ih =>
      cases pos with
      | zero => cases len with
        | zero => simp
        | succ l => simpa using ih 0 l
      | succ p => simpa using ih p len

theorem writeRun_getD (v pos len : Nat) (buf : List Nat) (i : Nat) :
    (writeRun v pos len buf).getD i 0 =
      if pos ≤ i ∧ i < pos + len ∧ i < buf.length then v else buf.getD i 0 := by
  induction buf generalizing pos len i with
  | nil => simp
  | cons x xs ih =>
      cases pos with
      | zero =>
          cases len with
          | zero => simp
          | succ l =>
              cases i with
              | zero => simp
              | succ j =>
                  simp only [writeRun_zero_succ, List.getD_cons_succ, ih 0 l j,
                    List.length_cons]
                  split_ifs <;> first | rfl | omega
      | succ p =>
          cases i with
          | zero =>
              simp only [writeRun_succ, List.getD_cons_zero]
              split_ifs <;> first | rfl | omega
          | succ j =>
              simp only [writeRun_succ, List.getD_cons_succ, ih p len j,
                List.length_cons]
              split_ifs <;> first | rfl | omega

@[simp] theorem sumCounts_nil : sumCounts [] = 0 := rfl

@[simp] theorem sumCounts_cons (v c : Nat) (rest : List (Nat × Nat)) :
    sumCounts ((v, c) :: rest) = c + sumCounts rest := by
  simp [sumCounts]

@[simp] theorem runRLE_nil (pos : Nat) (buf : List Nat) : runRLE [] pos buf = buf := rfl

@[simp] theorem runRLE_cons (v c : Nat) (rest : List (Nat × Nat)) (pos : Nat)
    (buf : List Nat) :
    runRLE ((v, c) :: rest) pos buf = runRLE rest (pos + c) (writeRun (v % 256) pos c buf) :=
  rfl

@[simp] theorem runRLE_length (rle : List (Nat × Nat)) (pos : Nat) (buf : List Nat) :
    (runRLE rle pos buf).length = buf.length := by
  induction rle generalizing pos buf with
  | nil => rfl
  | cons p rest ih => cases p with | mk v c => simp [ih]

/-- Cells before the starting position or at or beyond the cumulative count
are never written. -/
theorem runRLE_getD_out (rle : List (Nat × Nat)) (pos : Nat) (buf : List Nat) (i : Nat)
    (h : i < pos ∨ pos + sumCounts rle ≤ i) :
    (runRLE rle pos buf).getD i 0 = buf.getD i 0 := by
  induction rle generalizing pos buf with
  | nil => rfl
  | cons p rest ih =>
      cases p with
      | mk v c =>
          simp only [sumCounts_cons] at h
          rw [runRLE_cons, ih (pos + c) _ (by omega), writeRun_getD]
          split_ifs with hc
          · omega
          · rfl

@[simp] theorem expand_nil : expand [] = [] := rfl

theorem expand_cons (v c : Nat) (rest : List (Nat × Nat)) :
    expand ((v, c) :: rest) = List.replicate c (v % 256) ++ expand rest := by
  simp [expand]

theorem getD_replicate (a c j : Nat) :
    (List.replicate c a).getD j 0 = if j < c then a else 0 := by
  induction c generalizing j with
  | zero => simp
  | succ n ih =>
      cases j with
      | zero => simp [List.replicate_succ]
      | succ j => simpa [List.replicate_succ, Nat.succ_lt_succ_iff] using ih j

theorem ext_of_getD {l₁ l₂ : List Nat} (hl : l₁.length = l₂.length)
    (h : ∀ i, l₁.getD i 0 = l₂.getD i 0) : l₁ = l₂ := by
  apply List.ext_getElem hl
  intro i h1 h2
  have hi := h i
  rwa [List.getD_eq_getElem _ _ h1, List.getD_eq_getElem _ _ h2] at hi

/-- Inside the covered range, the decoded buffer agrees with the row-major
expansion of the stream. -/
theorem runRLE_getD_in (rle : List (Nat × Nat)) (pos : Nat) (buf : List Nat) (i : Nat)
    (h1 : pos ≤ i) (h2 : i < pos + sumCounts rle) (h3 : i < buf.length) :
    (runRLE rle pos buf).getD i 0 = (expand rle).getD (i - pos) 0 := by
  induction rle generalizing pos buf with
  | nil => simp only [sumCounts_nil] at h2; omega
  | cons p rest ih =>
      cases p with
      | mk v c =>
          simp only [sumCounts_cons] at h2
          rw [runRLE_cons]
          by_cases hc : i < pos + c
          · rw [runRLE_getD_out rest (pos + c) _ i (Or.inl hc), writeRun_getD,
              if_pos ⟨h1, hc, h3⟩, expand_cons,
              List.getD_append _ _ _ _ (by simp only [List.length_replicate]; omega),
              getD_replicate, if_pos (by omega)]
          · rw [ih (pos + c) (writeRun (v % 256) pos c buf) (by omega) (by omega)
              (by simpa using h3), expand_cons,
              List.getD_append_right _ _ _ _ (by simp only [List.length_replicate]; omega)]
            simp only [List.length_replicate]
            congr 1
            omega

theorem expand_encode (m : List Nat) : expand (encode m) = m.map (· % 256) := by
  induction m with
  | nil => rfl
  | cons x xs ih =>
      cases h : encode xs with
      | nil =>
          rw [h] at ih
          simp only [encode, h, expand_cons, expand_nil, List.map_cons, ← ih,
            List.replicate_one, List.singleton_append]
      | cons p rest =>
          cases p with
          | mk v c =>
              rw [h] at ih
              by_cases hv : v = x
              · subst hv
                have he : encode (v :: xs) = (v, c + 1) :: rest := by
                  simp [encode, h]
                rw [he, expand_cons, List.replicate_succ, List.cons_append, List.map_cons]
                rw [expand_cons] at ih
                rw [ih]
              · simp only [encode, h, if_neg hv, List.map_cons, ← ih, expand_cons,
                  List.replicate_one, List.singleton_append, List.cons_append,
                  List.nil_append]

theorem sumCounts_encode (m : List Nat) : sumCounts (encode m) = m.length := by
  induction m with
  | nil => rfl
  | cons x xs ih =>
      cases h : encode xs with
      | nil =>
          rw [h] at ih
          simp only [encode, h, sumCounts_cons, sumCounts_nil, List.length_cons, ← ih]
      | cons p rest =>
          cases p with
          | mk v c =>
              rw [h] at ih
              by_cases hv : v = x
              · subst hv
                have he : encode (v :: xs) = (v, c + 1) :: rest := by
                  simp [encode, h]
                rw [he]
                simp only [sumCounts_cons] at ih ⊢
                simp only [List.length_cons]
                omega
              · simp only [encode, h, if_neg hv, sumCounts_cons, List.length_cons, ← ih]
                omega

theorem getD_map_mod (l : List Nat) (i : Nat) :
    (l.map (· % 256)).getD i 0 = l.getD i 0 % 256 := by
  induction l generalizing i with
  | nil => simp
  | cons x xs ih =>
      cases i with
      | zero => simp
      | succ j => simpa using ih j

theorem reshape_shape (h w : Nat) (xs : List Nat) (hx : xs.length = h * w) :
    (reshape h w xs).length = h ∧ ∀ row ∈ reshape h w xs, row.length = w := by
  induction h generalizing xs with
  | zero => simp [reshape]
  | succ n ih =>
      have hlen : xs.length = n * w + w := by rw [hx]; ring
      obtain ⟨hl, hr⟩ := ih (xs.drop w) (by rw [List.length_drop]; omega)
      refine ⟨by simp [reshape, hl], ?_⟩
      intro row hrow
      simp only [reshape, List.mem_cons] at hrow
      rcases hrow with rfl | hrow
      · rw [List.length_take]; omega
      · exact hr row hrow

theorem flatten_length_const (m : List (List Nat)) (w : Nat)
    (hw : ∀ r ∈ m, r.length = w) : m.flatten.length = m.length * w := by
  induction m with
  | nil => simp
  | cons r rest ih =>
      simp only [List.flatten_cons, List.length_append, List.length_cons,
        ih (fun s hs => hw s (List.mem_cons_of_mem _ hs)),
        hw r (List.mem_cons_self _ _)]
      ring

theorem reshape_flatten (m : List (List Nat)) (w : Nat) (hw : ∀ r ∈ m, r.length = w) :
    reshape m.length w m.flatten = m := by
  induction m with
  | nil => rfl
  | cons r rest ih =>
      have hr : r.length = w := hw r (List.mem_cons_self _ _)
      simp only [List.length_cons, List.flatten_cons, reshape]
      rw [← hr, List.take_left, List.drop_left, hr,
        ih (fun s hs => hw s (List.mem_cons_of_mem _ hs))]

/-- Decoding the encoding of a flat mask whose values fit in a byte
reproduces the mask. -/
theorem runRLE_encode (m : List Nat) (hval : ∀ x ∈ m, x < 256) :
    runRLE (encode m) 0 (List.replicate m.length 0) = m := by
  apply ext_of_getD (by simp)
  intro i
  by_cases hi : i < m.length
  · rw [runRLE_getD_in _ 0 _ i (Nat.zero_le i)
      (by rw [sumCounts_encode]; omega) (by simpa using hi),
      Nat.sub_zero, expand_encode, getD_map_mod]
    have hmem : m.getD i 0 ∈ m := by
      rw [List.getD_eq_getElem _ _ hi]
      exact List.getElem_mem _
    exact Nat.mod_eq_of_lt (hval _ hmem)
  · rw [List.getD_eq_default _ _ (by simpa using Nat.le_of_not_lt hi),
      List.getD_eq_default _ _ (Nat.le_of_not_lt hi)]

theorem writeRun_zero_id (pos c : Nat) (buf : List Nat)
    (h : ∀ i, pos ≤ i → buf.getD i 0 = 0) : writeRun 0 pos c buf = buf := by
  apply ext_of_getD (by simp)
  intro i
  rw [writeRun_getD]
  split_ifs with hc
  · exact (h i hc.1).symm
  · rfl

@[simp] theorem runRLEskip_nil (pos : Nat) (buf : List Nat) : runRLEskip [] pos buf = buf :=
  rfl

theorem runRLEskip_cons (v c : Nat) (rest : List (Nat × Nat)) (pos : Nat) (buf : List Nat) :
    runRLEskip ((v, c) :: rest) pos buf =
      runRLEskip rest (pos + c) (if v ≠ 0 then writeRun (v % 256) pos c buf else buf) :=
  rfl

/-- Over a buffer that is zero from the running position onwards, skipping
zero-valued runs is the same as writing them. -/
theorem runRLEskip_eq_runRLE (rle : List (Nat × Nat)) (pos : Nat) (buf : List Nat)
    (h : ∀ i, pos ≤ i → buf.getD i 0 = 0) :
    runRLEskip rle pos buf = runRLE rle pos buf := by
  induction rle generalizing pos buf with
  | nil => rfl
  | cons p rest ih =>
      cases p with
      | mk v c =>
          have hnext : ∀ i, pos + c ≤ i → (writeRun (v % 256) pos c buf).getD i 0 = 0 := by
            intro i hi
            rw [writeRun_getD]
            split_ifs with hc
            · omega
            · exact h i (by omega)
          rw [runRLEskip_cons, runRLE_cons]
          by_cases hv : v = 0
          · subst hv
            rw [if_neg (by simp), ih (pos + c) buf (fun i hi => h i (by omega)),
              Nat.zero_mod, writeRun_zero_id pos c buf h]
          · rw [if_pos hv]
            exact ih (pos + c) _ hnext

/-- C2 counterexample: `decode_rle` performs no length check — on the stream
`[(1, 2)]` for a 2×2 mask, whose counts sum to 2 ≠ 4, it silently returns
the mask `[[1,1],[0,0]]` with the residual cells zero-filled and no error or
flag, contradicting the claim that such a stream must fail with
`MalformedRLE`. -/
theorem decode_rle_accepts_short_stream :
    sumCounts [(1, 2)] ≠ 2 * 2 ∧ decode_rle [(1, 2)] 2 2 = [[1, 1], [0, 0]] := by
  constructor
  · decide
  · rfl

/-- C2 (amended): `decode_rle` is total — for every stream and every target
width and height it returns an unflagged `height`-row mask of `width`-columns;
a too-short stream leaves the residual cells (flat positions at or beyond the
cumulative count) equal to 0, and a too-long stream has its excess writes
clipped at `width*height` (the buffer length never changes). -/
theorem decode_rle_total (rle : List (Nat × Nat)) (w h : Nat) :
    (decode_rle rle w h).length = h ∧
    (∀ row ∈ decode_rle rle w h, row.length = w) ∧
    (∀ i, sumCounts rle ≤ i → (runRLE rle 0 (List.replicate (w * h) 0)).getD i 0 = 0) ∧
    (runRLE rle 0 (List.replicate (w * h) 0)).length = w * h := by
  have hbuf : (runRLE rle 0 (List.replicate (w * h) 0)).length = h * w := by
    rw [runRLE_length, List.length_replicate]
    ring
  obtain ⟨hl, hr⟩ := reshape_shape h w _ hbuf
  refine ⟨hl, hr, ?_, by rw [runRLE_length, List.length_replicate]⟩
  intro i hi
  rw [runRLE_getD_out _ _ _ _ (Or.inr (by omega)), getD_replicate]
  exact ite_self 0

/-- Witness for `decode_rle_total` at the too-short stream `[(1,2)]` for a
2×2 mask. -/
theorem decode_rle_total_witness :
    (decode_rle [(1, 2)] 2 2).length = 2 ∧ ([1, 1] : List Nat).length = 2 ∧
    (runRLE [(1, 2)] 0 (List.replicate (2 * 2) 0)).getD 3 0 = 0 :=
  ⟨(decode_rle_total [(1, 2)] 2 2).1,
   (decode_rle_total [(1, 2)] 2 2).2.1 [1, 1] (by decide),
   (decode_rle_total [(1, 2)] 2 2).2.2.1 3 (by decide)⟩

/-- C6 counterexample: the decoder writes into a `uint8` buffer, so the
round-trip law fails for the 1×1 mask `[[256]]`: `decode(encode(m))` yields
`[[0]]`, not `m`. -/
theorem rle_roundtrip_fails_uint8 :
    decode_rle (encode ([[256]] : List (List Nat)).flatten) 1 1 = [[0]] ∧
    decode_rle (encode ([[256]] : List (List Nat)).flatten) 1 1 ≠ [[256]] := by
  constructor
  · rfl
  · decide

/-- C6 (amended): for every `h × w` mask `m` whose values fit in a byte
(`< 256`, the range the `uint8` decode buffer can represent),
`decode(encode(m)) = m`: encoding row-major and decoding at the same width
and height reproduces the mask exactly. -/
theorem rle_roundtrip (m : List (List Nat)) (w h : Nat)
    (hh : m.length = h) (hw : ∀ r ∈ m, r.length = w)
    (hval : ∀ r ∈ m, ∀ x ∈ r, x < 256) :
    decode_rle (encode m.flatten) w h = m := by
  have hflat : m.flatten.length = w * h := by
    rw [flatten_length_const m w hw, hh]
    ring
  have hvflat : ∀ x ∈ m.flatten, x < 256 := by
    intro x hx
    obtain ⟨r, hr, hxr⟩ := List.mem_flatten.mp hx
    exact hval r hr x hxr
  unfold decode_rle
  rw [← hflat, runRLE_encode _ hvflat, ← hh]
  exact reshape_flatten m w hw

/-- Witness for `rle_roundtrip` on the 2×2 byte-valued mask
`[[1,2],[0,255]]`. -/
theorem rle_roundtrip_witness :
    decode_rle (encode ([[1, 2], [0, 255]] : List (List Nat)).flatten) 2 2 =
      [[1, 2], [0, 255]] :=
  rle_roundtrip [[1, 2], [0, 255]] 2 2 (by decide) (by decide) (by decide)

/-- C10: the two RLE decoders are equivalent — for every stream whose counts
sum to `width*height`, the decoder of `converting_json_to_nifti_itk_snap.py`
(which writes every run, zero-valued ones included) and the `flat_mask`
decoding loop of `mask_class_conversion.py` (which skips zero-valued runs,
only advancing the position) produce the identical `height × width` mask,
because the output buffer is zero-initialised. -/
theorem decoders_equivalent (rle : List (Nat × Nat)) (w h : Nat)
    (hsum : sumCounts rle = w * h) :
    mask_class_decode rle (h * w) w h = .ok (decode_rle rle w h) := by
  unfold mask_class_decode decode_rle
  rw [if_pos rfl, Nat.mul_comm h w,
    runRLEskip_eq_runRLE _ 0 _ (fun i _ => by rw [getD_replicate]; exact ite_self 0)]

/-- Witness for `decoders_equivalent` on the stream
`[(3,2),(0,2)]` for a 2×2 mask. -/
theorem decoders_equivalent_witness :
    mask_class_decode [(3, 2), (0, 2)] (2 * 2) 2 2 =
      .ok (decode_rle [(3, 2), (0, 2)] 2 2) :=
  decoders_equivalent [(3, 2), (0, 2)] 2 2 (by decide)

theorem npBroadcast_eq_len (f : Bool → Bool → Bool) (a b : List Bool)
    (h : a.length = b.length) : npBroadcast f a b = .ok (List.zipWith f a b) := by
  unfold npBroadcast
  rw [if_pos h]

theorem Array_AND_eq_len (m1 m2 : List (List Nat))
    (h : (Flatten m1).length = (Flatten m2).length) :
    Array_AND m1 m2 =
      .ok (List.zipWith and ((Flatten m1).map truthy) ((Flatten m2).map truthy),
        (List.zipWith and ((Flatten m1).map truthy) ((Flatten m2).map truthy)).count true) := by
  unfold Array_AND
  rw [npBroadcast_eq_len _ _ _ (by simpa using h)]
  rfl

theorem Array_OR_eq_len (m1 m2 : List (List Nat))
    (h : (Flatten m1).length = (Flatten m2).length) :
    Array_OR m1 m2 =
      .ok (List.zipWith or ((Flatten m1).map truthy) ((Flatten m2).map truthy),
        (List.zipWith or ((Flatten m1).map truthy) ((Flatten m2).map truthy)).count true) := by
  unfold Array_OR
  rw [npBroadcast_eq_len _ _ _ (by simpa using h)]
  rfl

theorem iou_eq_len (m1 m2 : List (List Nat))
    (h : (Flatten m1).length = (Flatten m2).length) :
    iou m1 m2 =
      if (List.zipWith or ((Flatten m1).map truthy) ((Flatten m2).map truthy)).count true = 0
      then .error .zeroDivision
      else .ok
        (((List.zipWith and ((Flatten m1).map truthy) ((Flatten m2).map truthy)).count true : ℚ) /
          ((List.zipWith or ((Flatten m1).map truthy) ((Flatten m2).map truthy)).count true : ℚ)) := by
  unfold iou
  rw [Array_AND_eq_len _ _ h, Array_OR_eq_len _ _ h]
  rfl

theorem zipWith_bool_no_true (f : Bool → Bool → Bool) (hf : f false false = false)
    (a b : List Bool) (ha : true ∉ a) (hb : true ∉ b) :
    true ∉ List.zipWith f a b := by
  induction a generalizing b with
  | nil => simp
  | cons x xs ih =>
      cases b with
      | nil => simp
      | cons y ys =>
          simp only [List.mem_cons, not_or] at ha hb
          have hx : x = false := by
            cases x with
            | false => rfl
            | true => exact absurd rfl ha.1
          have hy : y = false := by
            cases y with
            | false => rfl
            | true => exact absurd rfl hb.1
          subst hx
          subst hy
          simp only [List.zipWith_cons_cons, List.mem_cons, not_or]
          exact ⟨by rw [hf]; simp, ih ys ha.2 hb.2⟩

theorem zipWith_eq_map_zip {α β γ : Type} (f : α → β → γ) (l1 : List α) (l2 : List β) :
    List.zipWith f l1 l2 = (l1.zip l2).map (fun p => f p.1 p.2) := by
  induction l1 generalizing l2 with
  | nil => simp
  | cons x xs ih => cases l2 <;> simp [ih]

theorem count_true_ne_zero_of_mem {l : List Bool} (h : true ∈ l) : l.count true ≠ 0 :=
  fun hc => absurd h (List.count_eq_zero.mp hc)

/-- C1 counterexample: on two equal-shaped all-background masks, the IoU
computation of `iou_calculator.py` (`Intersection / Overlap`) raises
`ZeroDivisionError`; it does not return a distinguished "undefined" result,
contrary to the claim. -/
theorem iou_raises_on_zero_union :
    iou [[0, 0], [0, 0]] [[0, 0], [0, 0]] = .error .zeroDivision := rfl

/-- C1 (amended): for equal-shaped masks whose union count is zero (both
fully background), the IoU computation raises `ZeroDivisionError` instead of
returning a distinguished undefined value; for a non-empty mask,
`iou m m = 1`; and for a non-empty mask disjoint from the other equal-shaped
mask's foreground, `iou = 0`. -/
theorem iou_behaviour (m1 m2 : List (List Nat)) :
    ((Flatten m1).length = (Flatten m2).length → (∀ x ∈ Flatten m1, x = 0) →
      (∀ x ∈ Flatten m2, x = 0) → iou m1 m2 = .error .zeroDivision) ∧
    ((∃ x ∈ Flatten m1, x ≠ 0) → iou m1 m1 = .ok 1) ∧
    ((Flatten m1).length = (Flatten m2).length → (∃ x ∈ Flatten m1, x ≠ 0) →
      (∀ p ∈ (Flatten m1).zip (Flatten m2), p.1 = 0 ∨ p.2 = 0) →
      iou m1 m2 = .ok 0) := by
  refine ⟨?_, ?_, ?_⟩
  · intro hlen h1 h2
    rw [iou_eq_len _ _ hlen, if_pos]
    rw [List.count_eq_zero]
    apply zipWith_bool_no_true or rfl
    · intro hmem
      obtain ⟨x, hx, e⟩ := List.mem_map.mp hmem
      rw [h1 x hx] at e
      simp [truthy] at e
    · intro hmem
      obtain ⟨x, hx, e⟩ := List.mem_map.mp hmem
      rw [h2 x hx] at e
      simp [truthy] at e
  · rintro ⟨x, hx, hxne⟩
    rw [iou_eq_len _ _ rfl]
    have hself_and : List.zipWith and ((Flatten m1).map truthy) ((Flatten m1).map truthy) =
        (Flatten m1).map truthy := by
      rw [List.zipWith_same]
      simp
    have hself_or : List.zipWith or ((Flatten m1).map truthy) ((Flatten m1).map truthy) =
        (Flatten m1).map truthy := by
      rw [List.zipWith_same]
      simp
    rw [hself_and, hself_or]
    have hmem : true ∈ (Flatten m1).map truthy :=
      List.mem_map.mpr ⟨x, hx, by simp [truthy, hxne]⟩
    rw [if_neg (count_true_ne_zero_of_mem hmem)]
    congr 1
    exact div_self (Nat.cast_ne_zero.mpr (count_true_ne_zero_of_mem hmem))
  · rintro hlen ⟨x, hx, hxne⟩ hdisj
    rw [iou_eq_len _ _ hlen]
    obtain ⟨i, hi, hget⟩ := List.getElem_of_mem hx
    have hlt : i <
        (List.zipWith or ((Flatten m1).map truthy) ((Flatten m2).map truthy)).length := by
      rw [List.length_zipWith]
      simp only [List.length_map]
      omega
    have htrue :
        (List.zipWith or ((Flatten m1).map truthy) ((Flatten m2).map truthy)).get
          ⟨i, hlt⟩ = true := by
      rw [List.get_eq_getElem, List.getElem_zipWith, List.getElem_map, hget]
      have hx2 : truthy x = true := by simp [truthy, hxne]
      rw [hx2, Bool.true_or]
    have hor : true ∈ List.zipWith or ((Flatten m1).map truthy) ((Flatten m2).map truthy) := by
      rw [← htrue]
      exact List.get_mem _ _ hlt
    rw [if_neg (count_true_ne_zero_of_mem hor)]
    have hand :
        (List.zipWith and ((Flatten m1).map truthy) ((Flatten m2).map truthy)).count true =
          0 := by
      rw [List.count_eq_zero, List.zipWith_map, zipWith_eq_map_zip]
      intro hmem
      obtain ⟨p, hp, e⟩ := List.mem_map.mp hmem
      rcases hdisj p hp with h0 | h0 <;> simp [truthy, h0] at e
    rw [hand]
    rw [Nat.cast_zero, zero_div]

/-- Witness for `iou_behaviour`: an all-zero pair raises `ZeroDivisionError`,
a non-empty mask against itself scores 1, and disjoint foregrounds score 0. -/
theorem iou_behaviour_witness :
    iou [[0, 0]] [[0, 0]] = .error .zeroDivision ∧
    iou [[1, 0]] [[1, 0]] = .ok 1 ∧
    iou [[1, 0]] [[0, 1]] = .ok 0 :=
  ⟨(iou_behaviour [[0, 0]] [[0, 0]]).1 rfl (by decide) (by decide),
   (iou_behaviour [[1, 0]] [[1, 0]]).2.1 ⟨1, by decide, by decide⟩,
   (iou_behaviour [[1, 0]] [[0, 1]]).2.2 rfl ⟨1, by decide, by decide⟩ (by decide)⟩

theorem npBroadcast_error (f : Bool → Bool → Bool) (a b : List Bool)
    (hne : a.length ≠ b.length) (ha : a.length ≠ 1) (hb : b.length ≠ 1) :
    npBroadcast f a b = .error .valueError := by
  unfold npBroadcast
  rw [if_neg hne]
  rcases a with _ | ⟨x, _ | ⟨x2, xs⟩⟩ <;> rcases b with _ | ⟨y, _ | ⟨y2, ys⟩⟩ <;>
    first
      | rfl
      | (exact absurd rfl hne)
      | (exact absurd rfl ha)
      | (exact absurd rfl hb)

theorem count_true_zipWith_eq_countP (f : Bool → Bool → Bool) (l1 l2 : List Nat) :
    (List.zipWith f (l1.map truthy) (l2.map truthy)).count true =
      (l1.zip l2).countP (fun p => f (truthy p.1) (truthy p.2)) := by
  rw [List.zipWith_map, zipWith_eq_map_zip, List.count_eq_countP, List.countP_map]
  apply List.countP_congr
  intro p _
  simp

/-- C7 counterexample: `Array_AND` and `Array_OR` perform no shape check —
for a 2×3 mask against a 3×2 mask (different widths and different heights)
both succeed on the flattened arrays instead of failing with
`ShapeMismatch`. -/
theorem set_algebra_no_shape_check :
    Array_AND [[1, 1, 1], [1, 1, 1]] [[1, 1], [1, 1], [1, 1]] =
      .ok ([true, true, true, true, true, true], 6) ∧
    Array_OR [[1, 1, 1], [1, 1, 1]] [[1, 1], [1, 1], [1, 1]] =
      .ok ([true, true, true, true, true, true], 6) :=
  ⟨rfl, rfl⟩

/-- C7 (amended): `Array_AND`/`Array_OR` never consult the 2-D shape; they
operate on the flattened arrays.  When the flattened lengths agree (in
particular whenever the shapes agree) they return the count of cells where
both (respectively at least one) binary interpretations (`value != 0`) are
true; they fail (with numpy's broadcast `ValueError`, not a dedicated
`ShapeMismatch`) exactly when the flattened lengths differ and neither is 1. -/
theorem set_algebra_flat_semantics (a b : List (List Nat)) :
    ((Flatten a).length = (Flatten b).length →
      Array_AND a b =
        .ok (List.zipWith and ((Flatten a).map truthy) ((Flatten b).map truthy),
          ((Flatten a).zip (Flatten b)).countP (fun p => truthy p.1 && truthy p.2)) ∧
      Array_OR a b =
        .ok (List.zipWith or ((Flatten a).map truthy) ((Flatten b).map truthy),
          ((Flatten a).zip (Flatten b)).countP (fun p => truthy p.1 || truthy p.2))) ∧
    ((Flatten a).length ≠ (Flatten b).length → (Flatten a).length ≠ 1 →
      (Flatten b).length ≠ 1 →
      Array_AND a b = .error .valueError ∧ Array_OR a b = .error .valueError) := by
  constructor
  · intro hlen
    constructor
    · rw [Array_AND_eq_len a b hlen, count_true_zipWith_eq_countP]
    · rw [Array_OR_eq_len a b hlen, count_true_zipWith_eq_countP]
  · intro hne ha hb
    have herr : ∀ f : Bool → Bool → Bool,
        npBroadcast f ((Flatten a).map truthy) ((Flatten b).map truthy) =
          .error .valueError := fun f =>
      npBroadcast_error f _ _ (by simpa using hne) (by simpa using ha) (by simpa using hb)
    constructor
    · unfold Array_AND
      rw [herr and]
      rfl
    · unfold Array_OR
      rw [herr or]
      rfl

/-- Witness for `set_algebra_flat_semantics`: the equal-length branch on a
pair of 1×2 masks and the broadcast-failure branch on a 1×2 against a 1×3
mask. -/
theorem set_algebra_flat_semantics_witness :
    (Array_AND [[1, 0]] [[1, 1]] = .ok ([true, false], 1) ∧
      Array_OR [[1, 0]] [[1, 1]] = .ok ([true, true], 2)) ∧
    (Array_AND [[1, 0]] [[1, 2, 3]] = .error .valueError ∧
      Array_OR [[1, 0]] [[1, 2, 3]] = .error .valueError) := by
  constructor
  · have h := (set_algebra_flat_semantics [[1, 0]] [[1, 1]]).1 rfl
    exact h
  · exact (set_algebra_flat_semantics [[1, 0]] [[1, 2, 3]]).2 (by decide) (by decide)
      (by decide)

@[simp] theorem dlookup_nil {α β : Type} [DecidableEq α] (key : α) :
    dlookup ([] : List (α × β)) key = none := rfl

theorem dlookup_cons_of_some {α β : Type} [DecidableEq α] {rest : List (α × β)} {key : α}
    {r : β} (k : α) (v : β) (h : dlookup rest key = some r) :
    dlookup ((k, v) :: rest) key = some r := by
  unfold dlookup
  rw [h]

theorem dlookup_cons_of_none {α β : Type} [DecidableEq α] {rest : List (α × β)} {key : α}
    (k : α) (v : β) (h : dlookup rest key = none) :
    dlookup ((k, v) :: rest) key = if k = key then some v else none := by
  unfold dlookup
  rw [h]

theorem dlookup_globalEntriesFrom_none (i : Nat) (anns : List AnnRecord) (id1 : String)
    (h : id1 ∉ anns.map AnnRecord.id) :
    dlookup (globalEntriesFrom i anns) id1 = none := by
  induction anns generalizing i with
  | nil => rfl
  | cons a rest ih =>
      simp only [List.map_cons, List.mem_cons, not_or] at h
      unfold globalEntriesFrom
      rw [dlookup_cons_of_none _ _ (ih (i + 1) h.2), if_neg (fun e => h.1 e.symm)]

theorem dlookup_globalEntriesFrom (i : Nat) (anns : List AnnRecord) (id1 : String)
    (hnodup : (anns.map AnnRecord.id).Nodup) (hmem : id1 ∈ anns.map AnnRecord.id) :
    dlookup (globalEntriesFrom i anns) id1 =
      some (i + (anns.map AnnRecord.id).indexOf id1 + 1) := by
  induction anns generalizing i with
  | nil => simp at hmem
  | cons a rest ih =>
      simp only [List.map_cons, List.nodup_cons] at hnodup
      unfold globalEntriesFrom
      by_cases hid : id1 = a.id
      · subst hid
        rw [dlookup_cons_of_none _ _
            (dlookup_globalEntriesFrom_none _ _ _ hnodup.1),
          if_pos rfl, List.map_cons, List.indexOf_cons_self]
      · have hmem' : id1 ∈ rest.map AnnRecord.id := by
          simp only [List.map_cons, List.mem_cons] at hmem
          rcases hmem with h1 | h2
          · exact absurd h1 hid
          · exact h2
        rw [dlookup_cons_of_some _ _ (ih (i + 1) hnodup.2 hmem'), List.map_cons,
          List.indexOf_cons_ne _ (fun e => hid e.symm)]
        simp only [Option.some.injEq]
        omega

theorem dlookup_buildFrameMapping_none (anns : List AnnRecord) (maids : List (String × Nat))
    (fm : List (Nat × Nat)) (v : Nat)
    (hok : buildFrameMapping anns maids = .ok fm)
    (hv : v ≠ 0) (hnot : v ∉ maids.map Prod.snd) :
    dlookup fm v = none := by
  induction maids generalizing fm with
  | nil =>
      unfold buildFrameMapping at hok
      injection hok with hok
      subst hok
      rw [dlookup_cons_of_none _ _ (dlookup_nil v), if_neg (fun e => hv e.symm)]
  | cons p rest ih =>
      cases p with
      | mk k0 v0 =>
          unfold buildFrameMapping at hok
          split at hok
          · exact Except.noConfusion hok
          · split at hok
            · rename_i m hm
              injection hok with hok
              subst hok
              simp only [List.map_cons, List.mem_cons, not_or] at hnot
              rw [dlookup_cons_of_none _ _ (ih m hm hnot.2),
                if_neg (fun e => hnot.1 e.symm)]
            · exact Except.noConfusion hok

theorem dlookup_buildFrameMapping (anns : List AnnRecord) (maids : List (String × Nat))
    (fm : List (Nat × Nat)) (id1 : String) (v g : Nat)
    (hok : buildFrameMapping anns maids = .ok fm)
    (hmem : (id1, v) ∈ maids)
    (hnodup : (maids.map Prod.snd).Nodup)
    (hv : v ≠ 0)
    (hg : dlookup (globalEntries anns) id1 = some g) :
    dlookup fm v = some g := by
  induction maids generalizing fm with
  | nil => simp at hmem
  | cons p rest ih =>
      cases p with
      | mk k0 v0 =>
          unfold buildFrameMapping at hok
          split at hok
          · exact Except.noConfusion hok
          · rename_i g0 hg0
            split at hok
            · rename_i m hm
              injection hok with hok
              subst hok
              simp only [List.map_cons, List.nodup_cons] at hnodup
              rcases List.mem_cons.mp hmem with heq | hmem'
              · rw [Prod.mk.injEq] at heq
                obtain ⟨hk, hvv⟩ := heq
                subst hk
                subst hvv
                rw [hg] at hg0
                injection hg0 with hgg
                subst hgg
                rw [dlookup_cons_of_none _ _
                    (dlookup_buildFrameMapping_none anns rest m v hm hv hnodup.1),
                  if_pos rfl]
              · exact dlookup_cons_of_some _ _ (ih m hm hmem' hnodup.2)
            · exact Except.noConfusion hok

/-- C4: an object (annotation id) that appears in two different frames under
two different local mask values resolves, through each frame's
`frame_mapping`, to the identical global identity — the 1-based position of
that id in the item's annotation list (annotation ids assumed distinct, as
they are unique per item; local values assumed distinct within a frame's
mapping and non-zero, as `| {0: 0}` reserves local value 0). -/
theorem identity_stable (anns : List AnnRecord) (id1 : String)
    (maids1 maids2 : List (String × Nat)) (v1 v2 : Nat)
    (fm1 fm2 : List (Nat × Nat))
    (hnodup : (anns.map AnnRecord.id).Nodup)
    (h1 : buildFrameMapping anns maids1 = .ok fm1)
    (h2 : buildFrameMapping anns maids2 = .ok fm2)
    (hv1 : (id1, v1) ∈ maids1) (hv2 : (id1, v2) ∈ maids2)
    (hn1 : (maids1.map Prod.snd).Nodup) (hn2 : (maids2.map Prod.snd).Nodup)
    (h10 : v1 ≠ 0) (h20 : v2 ≠ 0)
    (hmem : id1 ∈ anns.map AnnRecord.id) :
    dlookup fm1 v1 = some ((anns.map AnnRecord.id).indexOf id1 + 1) ∧
    dlookup fm2 v2 = some ((anns.map AnnRecord.id).indexOf id1 + 1) := by
  have hg : dlookup (globalEntries anns) id1 =
      some ((anns.map AnnRecord.id).indexOf id1 + 1) := by
    have h0 := dlookup_globalEntriesFrom 0 anns id1 hnodup hmem
    simpa using h0
  exact ⟨dlookup_buildFrameMapping anns maids1 fm1 id1 v1 _ h1 hv1 hn1 h10 hg,
    dlookup_buildFrameMapping anns maids2 fm2 id1 v2 _ h2 hv2 hn2 h20 hg⟩

/-- Witness for `identity_stable`: object `"b"` carries local value 1 in one
frame and local value 3 in another; both frame mappings send it to global
identity 2, its 1-based position in the annotation list. -/
theorem identity_stable_witness :
    dlookup [(1, 2), (0, 0)] 1 = some ((["a", "b"] : List String).indexOf "b" + 1) ∧
    dlookup [(3, 2), (0, 0)] 3 = some ((["a", "b"] : List String).indexOf "b" + 1) :=
  identity_stable [⟨"a", "n", []⟩, ⟨"b", "m", []⟩] "b" [("b", 1)] [("b", 3)] 1 3
    [(1, 2), (0, 0)] [(3, 2), (0, 0)] (by decide) rfl rfl (by decide) (by decide)
    (by decide) (by decide) (by decide) (by decide) (by decide)

theorem dlookup_mem {α β : Type} [DecidableEq α] {l : List (α × β)} {k : α} {v : β}
    (h : dlookup l k = some v) : (k, v) ∈ l := by
  induction l with
  | nil => simp at h
  | cons p rest ih =>
      cases p with
      | mk k0 v0 =>
          unfold dlookup at h
          split at h
          · rename_i r hr
            injection h with h
            subst h
            exact List.mem_cons_of_mem _ (ih hr)
          · split_ifs at h with hk
            injection h with h
            subst h
            subst hk
            exact List.mem_cons_self _ _

/-- When every present frame entry carries a raster layer, the frame loop
emits exactly one mask per declared frame number, and the frame numbers
absent from the `frames` dictionary receive all-background masks. -/
theorem frameMasks_dense (anns : List AnnRecord) (w h : Nat)
    (frames : List (Nat × FrameData))
    (hall : ∀ p ∈ frames, p.2.raster_layer.isSome) :
    ∀ (ns : List Nat) (ms : List (List (List Nat))),
      frameMasks anns w h frames ns = .ok ms →
      ms.length = ns.length ∧
      ∀ i, i < ns.length → dlookup frames (ns.getD i 0) = none →
        ms.getD i [] = zeros2 h w := by
  intro ns
  induction ns with
  | nil =>
      intro ms hok
      unfold frameMasks at hok
      injection hok with hok
      subst hok
      exact ⟨rfl, fun i hi _ => absurd hi (by simp)⟩
  | cons n ns ih =>
      intro ms hok
      unfold frameMasks at hok
      split at hok
      · rename_i fd hfd
        have hrs : fd.raster_layer.isSome := hall (n, fd) (dlookup_mem hfd)
        split at hok
        · rename_i rl hrl
          split at hok
          · exact Except.noConfusion hok
          · rename_i fm hfm
            split at hok
            · exact Except.noConfusion hok
            · rename_i m hdec
              split at hok
              · exact Except.noConfusion hok
              · rename_i ms' hms
                injection hok with hok
                subst hok
                obtain ⟨hl, hidx⟩ := ih ms' hms
                refine ⟨by simpa using hl, ?_⟩
                intro i hi hnone
                cases i with
                | zero =>
                    rw [List.getD_cons_zero, hfd] at hnone
                    exact Option.noConfusion hnone
                | succ j =>
                    rw [List.getD_cons_succ] at hnone
                    rw [List.getD_cons_succ]
                    exact hidx j (by simpa using hi) hnone
        · rename_i hrl
          rw [hrl] at hrs
          simp at hrs
      · rename_i hfd
        split at hok
        · exact Except.noConfusion hok
        · rename_i ms' hms
          injection hok with hok
          subst hok
          obtain ⟨hl, hidx⟩ := ih ms' hms
          refine ⟨by simpa using hl, ?_⟩
          intro i hi hnone
          cases i with
          | zero => rw [List.getD_cons_zero]
          | succ j =>
              rw [List.getD_cons_succ] at hnone
              rw [List.getD_cons_succ]
              exact hidx j (by simpa using hi) hnone

/-- C3 counterexample: an item with 3 declared frames whose frame 1 is
present in the `frames` dict but has no `raster_layer` key yields only 2
masks — the present-but-layerless frame contributes no element at all, so
the output is not dense in the frame axis. -/
theorem reconciler_drops_frames :
    collectMasks [⟨"a", "__raster_layer__", [(1, ⟨none⟩)]⟩] 2 2 3 =
      .ok [zeros2 2 2, zeros2 2 2] ∧
    [zeros2 2 2, zeros2 2 2].length ≠ 3 :=
  ⟨rfl, by decide⟩

/-- C3 (amended): provided every frame entry present in the `frames` dict
carries a raster layer (the present-but-layerless case silently drops the
frame), a successful frame loop outputs exactly `frame_count` masks, and
every declared frame number absent from the dict is represented by an
all-background `height × width` mask at its index. -/
theorem reconciler_gap_fill (anns : List AnnRecord) (w h fc : Nat)
    (frames : List (Nat × FrameData)) (ms : List (List (List Nat)))
    (hall : ∀ p ∈ frames, p.2.raster_layer.isSome)
    (hok : frameMasks anns w h frames (List.range fc) = .ok ms) :
    ms.length = fc ∧
    ∀ n, n < fc → dlookup frames n = none → ms.getD n [] = zeros2 h w := by
  obtain ⟨hl, hidx⟩ := frameMasks_dense anns w h frames hall (List.range fc) ms hok
  refine ⟨by simpa using hl, ?_⟩
  intro n hn hnone
  refine hidx n (by simpa using hn) ?_
  rwa [List.getD_eq_getElem _ _ (by simpa using hn), List.getElem_range]

/-- Witness for `reconciler_gap_fill`: a 2-frame item whose frame 0 has a
raster layer and whose frame 1 is absent gets an all-background mask at
index 1. -/
theorem reconciler_gap_fill_witness :
    ([[[0, 0], [0, 0]], [[0, 0], [0, 0]]] : List (List (List Nat))).getD 1 [] =
      zeros2 2 2 :=
  (reconciler_gap_fill [] 2 2 2 [(0, ⟨some ⟨[(0, 4)], []⟩⟩)]
    [[[0, 0], [0, 0]], [[0, 0], [0, 0]]] (by decide) rfl).2 1 (by decide) rfl

theorem buildFrameMapping_error_of_unknown (anns : List AnnRecord)
    (maids : List (String × Nat)) (k : String) (v : Nat)
    (hkv : (k, v) ∈ maids) (hunk : dlookup (globalEntries anns) k = none) :
    ∃ e, buildFrameMapping anns maids = .error e := by
  induction maids with
  | nil => simp at hkv
  | cons p rest ih =>
      cases p with
      | mk k0 v0 =>
          unfold buildFrameMapping
          cases hg0 : dlookup (globalEntries anns) k0 with
          | none => exact ⟨.keyError k0, rfl⟩
          | some g0 =>
              rcases List.mem_cons.mp hkv with heq | hmem'
              · rw [Prod.mk.injEq] at heq
                rw [heq.1] at hunk
                rw [hunk] at hg0
                exact Option.noConfusion hg0
              · obtain ⟨e, he⟩ := ih hmem'
                rw [he]
                exact ⟨e, rfl⟩

theorem frameMasks_error_of_frame_error (anns : List AnnRecord) (w h : Nat)
    (frames : List (Nat × FrameData)) (ns : List Nat) (n : Nat)
    (hn : n ∈ ns) (fd : FrameData) (hfd : dlookup frames n = some fd)
    (rl : RasterLayer) (hrl : fd.raster_layer = some rl)
    (herr : ∃ e, buildFrameMapping anns rl.mask_annotation_ids_mapping = .error e) :
    ∃ e, frameMasks anns w h frames ns = .error e := by
  induction ns with
  | nil => simp at hn
  | cons n0 ns ih =>
      rcases List.mem_cons.mp hn with rfl | hmem
      · obtain ⟨e, he⟩ := herr
        refine ⟨e, ?_⟩
        unfold frameMasks
        simp only [hfd, hrl, he]
      · cases hd : dlookup frames n0 with
        | none =>
            obtain ⟨e, he⟩ := ih hmem
            refine ⟨e, ?_⟩
            unfold frameMasks
            simp only [hd, he]
        | some fd0 =>
            cases hrl0 : fd0.raster_layer with
            | none =>
                obtain ⟨e, he⟩ := ih hmem
                refine ⟨e, ?_⟩
                unfold frameMasks
                simp only [hd, hrl0]
                exact he
            | some rl0 =>
                cases hbm : buildFrameMapping anns rl0.mask_annotation_ids_mapping with
                | error e2 =>
                    refine ⟨e2, ?_⟩
                    unfold frameMasks
                    simp only [hd, hrl0, hbm]
                | ok fm =>
                    cases hdec : decode_rle_mapped rl0.dense_rle w h fm with
                    | error e2 =>
                        refine ⟨e2, ?_⟩
                        unfold frameMasks
                        simp only [hd, hrl0, hbm, hdec]
                    | ok m =>
                        obtain ⟨e, he⟩ := ih hmem
                        refine ⟨e, ?_⟩
                        unfold frameMasks
                        simp only [hd, hrl0, hbm, hdec, he]

theorem collectMasksAux_error (anns : List AnnRecord) (w h fc : Nat)
    (l : List AnnRecord) (a : AnnRecord) (ha : a ∈ l)
    (hname : a.name = "__raster_layer__")
    (herr : ∃ e, frameMasks anns w h a.frames (List.range fc) = .error e) :
    ∃ e, collectMasksAux anns w h fc l = .error e := by
  induction l with
  | nil => simp at ha
  | cons a0 rest ih =>
      rcases List.mem_cons.mp ha with rfl | hmem
      · obtain ⟨e, he⟩ := herr
        refine ⟨e, ?_⟩
        unfold collectMasksAux
        rw [if_pos hname]
        simp only [he]
      · by_cases hn0 : a0.name = "__raster_layer__"
        · cases hfm : frameMasks anns w h a0.frames (List.range fc) with
          | error e =>
              refine ⟨e, ?_⟩
              unfold collectMasksAux
              rw [if_pos hn0]
              simp only [hfm]
          | ok ms =>
              obtain ⟨e, he⟩ := ih hmem
              refine ⟨e, ?_⟩
              unfold collectMasksAux
              rw [if_pos hn0]
              simp only [hfm, he]
        · obtain ⟨e, he⟩ := ih hmem
          refine ⟨e, ?_⟩
          unfold collectMasksAux
          rw [if_neg hn0]
          exact he

/-- C5 counterexample: a frame whose `mask_annotation_ids_mapping` references
an annotation id absent from the item's annotation list makes the whole item
conversion raise `KeyError` — the frame is not skipped with a warning and no
further frames are processed. -/
theorem unknown_id_aborts_item :
    collectMasks [⟨"x", "__raster_layer__",
        [(0, ⟨some ⟨[(0, 4)], [("missing", 1)]⟩⟩)]⟩] 2 2 1 =
      .error (.keyError "missing") := rfl

/-- C5 (amended): when a raster-layer annotation has a processed frame whose
local-value mapping references an annotation id absent from the item-level
list, the whole item conversion fails with an exception; no frame is skipped
with a warning and processing does not continue. -/
theorem unknown_id_not_recovered (anns : List AnnRecord) (w h fc : Nat)
    (a : AnnRecord) (hmem : a ∈ anns) (hname : a.name = "__raster_layer__")
    (n : Nat) (hn : n < fc) (fd : FrameData) (hfd : dlookup a.frames n = some fd)
    (rl : RasterLayer) (hrl : fd.raster_layer = some rl)
    (k : String) (v : Nat) (hkv : (k, v) ∈ rl.mask_annotation_ids_mapping)
    (hunk : dlookup (globalEntries anns) k = none) :
    ∃ e, collectMasks anns w h fc = .error e := by
  refine collectMasksAux_error anns w h fc anns a hmem hname ?_
  exact frameMasks_error_of_frame_error anns w h a.frames (List.range fc) n
    (List.mem_range.mpr hn) fd hfd rl hrl
    (buildFrameMapping_error_of_unknown anns rl.mask_annotation_ids_mapping k v hkv hunk)

/-- Witness for `unknown_id_not_recovered`: a 2-frame item whose frame 0
decodes fine and whose frame 1 references the unknown id `"ghost"` — the
whole conversion errors. -/
theorem unknown_id_not_recovered_witness :
    ∃ e, collectMasks [⟨"x", "__raster_layer__",
        [(0, ⟨some ⟨[(0, 4)], [("x", 1)]⟩⟩),
         (1, ⟨some ⟨[(0, 4)], [("ghost", 2)]⟩⟩)]⟩] 2 2 2 = .error e :=
  unknown_id_not_recovered
    [⟨"x", "__raster_layer__",
      [(0, ⟨some ⟨[(0, 4)], [("x", 1)]⟩⟩), (1, ⟨some ⟨[(0, 4)], [("ghost", 2)]⟩⟩)]⟩]
    2 2 2
    ⟨"x", "__raster_layer__",
      [(0, ⟨some ⟨[(0, 4)], [("x", 1)]⟩⟩), (1, ⟨some ⟨[(0, 4)], [("ghost", 2)]⟩⟩)]⟩
    (by decide) (by decide) 1 (by decide)
    ⟨some ⟨[(0, 4)], [("ghost", 2)]⟩⟩ rfl ⟨[(0, 4)], [("ghost", 2)]⟩ rfl
    "ghost" 2 (by decide) rfl

/-- C8 counterexample: the 2-point (degenerate) polygon `[(0,0), (1,1)]` is
not rejected — `gen_mask` happily produces a 3×3 mask (with the two segment
pixels filled), instead of failing with `DegeneratePolygon`. -/
theorem degenerate_polygon_not_rejected :
    gen_mask [(0, 0), (1, 1)] 3 3 = .ok [[1, 0, 0], [0, 1, 0], [0, 0, 0]] := rfl

/-- C8 (amended): `gen_mask` performs no minimum-vertex check: for every
non-empty polygon with fewer than 3 points and every target height and
width, it returns a `height × width` mask rather than rejecting the
polygon (an empty polygon raises the helper's generic `ValueError`, not a
dedicated `DegeneratePolygon`). -/
theorem gen_mask_accepts_degenerate (polygon : List (Int × Int)) (height width : Nat)
    (hne : polygon ≠ []) (hdeg : polygon.length < 3) :
    ∃ m, gen_mask polygon height width = .ok m ∧ m.length = height ∧
      ∀ row ∈ m, row.length = width := by
  refine ⟨draw_polygon (zeros2 height width) [polygon] 1, ?_, ?_, ?_⟩
  · unfold gen_mask convert_polygons_to_sequences
    rw [if_neg hne]
  · unfold draw_polygon zeros2
    rw [List.length_mapIdx, List.length_replicate]
  · intro row hrow
    obtain ⟨i, hi, hrow⟩ := List.exists_of_mem_mapIdx hrow
    rw [← hrow, List.length_mapIdx]
    unfold zeros2 at hi ⊢
    rw [List.getElem_replicate, List.length_replicate]

/-- Witness for `gen_mask_accepts_degenerate` at the 2-point polygon
`[(0,0), (1,1)]` on a 3×3 canvas. -/
theorem gen_mask_accepts_degenerate_witness :
    ∃ m, gen_mask [(0, 0), (1, 1)] 3 3 = .ok m ∧ m.length = 3 ∧
      ∀ row ∈ m, row.length = 3 :=
  gen_mask_accepts_degenerate [(0, 0), (1, 1)] 3 3 (by decide) (by decide)

@[simp] theorem keepPaths_nil : keepPaths [] = [] := rfl

theorem keepPaths_cons (q : List Nat) (rest : List (List Nat)) :
    keepPaths (q :: rest) =
      if q.length / 2 ≤ 2 then keepPaths rest else toPoints q :: keepPaths rest := rfl

theorem toPoints_length : ∀ l : List Nat, (toPoints l).length = l.length / 2
  | [] => rfl
  | [x] => by simp [toPoints]
  | x :: y :: rest => by
      have ih := toPoints_length rest
      simp only [toPoints, List.length_cons, ih]
      omega

theorem keepPaths_min (paths : List (List Nat)) :
    ∀ p ∈ keepPaths paths, 3 ≤ p.length := by
  induction paths with
  | nil => simp
  | cons q rest ih =>
      intro p hp
      rw [keepPaths_cons] at hp
      split_ifs at hp with hq
      · exact ih p hp
      · rcases List.mem_cons.mp hp with rfl | hp'
        · rw [toPoints_length]
          omega
        · exact ih p hp'

/-- C9: every path emitted by `convert_png_to_darwin_json` — external or
internal — has at least 3 points (paths with 2 or fewer points are
discarded by the `len(path) // 2 <= 2` filter), and empty contour sets (the
tracer's output for an all-background mask) yield an empty path list, not an
error. -/
theorem traced_paths_min_points (outer inner : List (List Nat)) :
    ((convert_png_to_darwin_json outer inner).all fun p => decide (3 ≤ p.length)) = true ∧
    convert_png_to_darwin_json [] [] = [] := by
  refine ⟨?_, rfl⟩
  rw [List.all_eq_true]
  intro p hp
  rcases List.mem_append.mp hp with h | h
  · simpa using keepPaths_min outer p h
  · simpa using keepPaths_min inner p h

end Codec
